import Mathlib

set_option maxHeartbeats 1000000

/- Formal model of the luainstaller dependency analyzer and build front end.
   The build/analyze wrappers are translated from src/source/__init__.py; the
   dependency_analyzer module itself is absent from src/ and is modelled from
   the specification (breadth-first traversal with literal-require extraction,
   cycle detection on the current traversal path, and a node budget checked
   before each insertion). -/

/-- Argument of a require call site: either a literal string (statically
resolvable) or any other expression form, kept as raw text. -/
inductive ReqArg where
  | literal (name : String)
  | dynamic (raw : String)
deriving DecidableEq

/-- Modelled from the spec: a RequireSite is one require call found in a
source unit, carrying the argument and the originating line number. -/
structure RequireSite where
  arg : ReqArg
  line : Nat
deriving DecidableEq

/-- Modelled from the spec: a SourceUnit is one scanned source file, reduced
to its ordered sequence of require sites (the SourceScanner's output). -/
structure SourceUnit where
  sites : List RequireSite
deriving DecidableEq

/-- Modelled from the spec: outcome of the ModuleResolver for one module
name: a script file, a native binary module, or no candidate at all. -/
inductive ResolveResult where
  | script (path : String)
  | native (path : String)
  | notFound (searched : List String)
deriving DecidableEq

/-- Analysis error taxonomy, following the exception names exported by
src/source/__init__.py and the payloads the spec assigns to each kind. -/
inductive AnalysisError where
  | scriptNotFound (path : String)
  | circularDependency (cycle : List String)
  | dynamicRequire (file : String) (line : Nat) (raw : String)
  | dependencyLimitExceeded (limit : Nat) (moduleName : String)
  | moduleNotFound (file : String) (moduleName : String)
  | nativeModuleUnsupported (file : String) (moduleName : String)
deriving DecidableEq

/-- Modelled from the spec: the filesystem and resolver context of one
analyze or build invocation.  `fs` maps a canonical path to its scanned
unit, `resolve` is the ModuleResolver with the traversal's search roots
fixed, `canon` is path canonicalization (Path.resolve), and `fileExists` is
the raw existence test used by build's eager check of explicit requires. -/
structure Env where
  fs : String → Option SourceUnit
  resolve : String → ResolveResult
  canon : String → String
  fileExists : String → Bool

instance exceptDecEq {ε α : Type} [DecidableEq ε] [DecidableEq α] :
    DecidableEq (Except ε α) := fun x y =>
  match x, y with
  | .ok a, .ok b => if h : a = b then .isTrue (by rw [h]) else .isFalse (by simp [h])
  | .error a, .error b => if h : a = b then .isTrue (by rw [h]) else .isFalse (by simp [h])
  | .ok _, .error _ => .isFalse (by simp)
  | .error _, .ok _ => .isFalse (by simp)

/-- The script path a site statically resolves to, when its argument is a
literal that the resolver maps to a script file. -/
def siteTarget (env : Env) (s : RequireSite) : Option String :=
  match s.arg with
  | .literal n =>
    match env.resolve n with
    | .script p => some p
    | _ => none
  | .dynamic _ => none

/-- All script targets of a file's require sites, in site order. -/
def nodeTargets (env : Env) (u : String) : List String :=
  match env.fs u with
  | none => []
  | some su => su.sites.filterMap (siteTarget env)

/-- One require edge of the static dependency graph. -/
def ReqStep (env : Env) (u p : String) : Prop := p ∈ nodeTargets env u

/-- Reflexive-transitive reachability along require edges. -/
def Reaches (env : Env) : String → String → Prop := Relation.ReflTransGen (ReqStep env)

/-- A node is good for a scope `S` when its file is present and every one of
its require sites is a literal resolving to a script path inside `S`. -/
def nodeGoodB (env : Env) (S : List String) (u : String) : Bool :=
  match env.fs u with
  | none => false
  | some su => su.sites.all fun s =>
      match siteTarget env s with
      | some p => S.contains p
      | none => false

/-- Mutable state of the breadth-first traversal: visited nodes in discovery
order (entry first), the FIFO work queue, and discovery-tree parent links
stored as (child, parent) pairs. -/
structure AnState where
  visited : List String
  queue : List String
  parent : List (String × String)

/-- Parent of a node on the discovery tree, if recorded. -/
def lookupParent (par : List (String × String)) (u : String) : Option String :=
  (par.find? fun pr => pr.1 == u).map (·.2)

/-- Follow parent links backward for at most `fuel` steps, collecting the
nodes passed (starting with `u` itself). -/
def chainAux : Nat → List (String × String) → String → List String
  | 0, _, u => [u]
  | fuel+1, par, u =>
    u :: (match lookupParent par u with
      | none => []
      | some v => chainAux fuel par v)

/-- Modelled from the spec: the ancestors of a unit on the current traversal
path, obtained by following discovery-tree edges backward toward the entry. -/
def ancestorChain (par : List (String × String)) (u : String) : List String :=
  chainAux (par.length + 1) par u

/-- The reported cycle: the traversal-path segment from the repeated node
down to the current unit, closed by repeating the node. -/
def cyclePath (chain : List String) (p : String) : List String :=
  ((chain.takeWhile fun x => x != p) ++ [p]).reverse ++ [p]

/-- Modelled from the spec: handle one require site of unit `u` during the
breadth-first traversal: a non-literal argument aborts with DynamicRequire;
resolver failures abort with ModuleNotFound or NativeModuleUnsupported; a
resolved path already on the current traversal path aborts with
CircularDependency; an already-visited path is skipped (diamond); a
brand-new path is budget-checked before insertion and then enqueued. -/
def processSite (env : Env) (maxNodes : Nat) (u : String) (st : AnState)
    (s : RequireSite) : Except AnalysisError AnState :=
  match s.arg with
  | .dynamic raw => .error (.dynamicRequire u s.line raw)
  | .literal name =>
    match env.resolve name with
    | .notFound _ => .error (.moduleNotFound u name)
    | .native _ => .error (.nativeModuleUnsupported u name)
    | .script p =>
      if p ∈ ancestorChain st.parent u then
        .error (.circularDependency (cyclePath (ancestorChain st.parent u) p))
      else if p ∈ st.visited then
        .ok st
      else if maxNodes < st.visited.length + 1 then
        .error (.dependencyLimitExceeded maxNodes name)
      else
        .ok (AnState.mk (st.visited ++ [p]) (st.queue ++ [p]) ((p, u) :: st.parent))

/-- Modelled from the spec: process the require sites of one dequeued unit
in the order the scanner reported them; the first error aborts. -/
def processSites (env : Env) (maxNodes : Nat) (u : String) :
    List RequireSite → AnState → Except AnalysisError AnState
  | [], st => .ok st
  | s :: rest, st =>
    match processSite env maxNodes u st s with
    | .error e => .error e
    | .ok st' => processSites env maxNodes u rest st'

/-- Modelled from the spec: the breadth-first traversal loop; files are
dequeued in discovery order.  The fuel equals the node budget, which bounds
the number of dequeues, so the fuel-exhaustion branch is never reached. -/
def bfsLoop (env : Env) (maxNodes : Nat) : Nat → AnState → Except AnalysisError (List String)
  | 0, st => .ok st.visited.tail
  | fuel+1, st =>
    match st.queue with
    | [] => .ok st.visited.tail
    | u :: rest =>
      match env.fs u with
      | none => .error (.scriptNotFound u)
      | some su =>
        match processSites env maxNodes u su.sites (AnState.mk st.visited rest st.parent) with
        | .error e => .error e
        | .ok st' => bfsLoop env maxNodes fuel st'

/-- Modelled from the spec: analyze_dependencies (the dependency_analyzer
module, absent from src/): canonicalize the entry path, fail when the entry
file is missing, enforce the node budget (the entry counts against it), and
run the breadth-first traversal; on success the result is every discovered
non-entry node in discovery order. -/
def analyze_dependencies (env : Env) (entry : String) (maxNodes : Nat) :
    Except AnalysisError (List String) :=
  match env.fs (env.canon entry) with
  | none => .error (.scriptNotFound entry)
  | some _ =>
    if maxNodes < 1 then .error (.dependencyLimitExceeded maxNodes entry)
    else bfsLoop env maxNodes maxNodes (AnState.mk [env.canon entry] [env.canon entry] [])

/-- analyze from src/source/__init__.py lines 108-121: a direct wrapper
around analyze_dependencies. -/
def analyze (env : Env) (entry : String) (max_deps : Nat) :
    Except AnalysisError (List String) :=
  analyze_dependencies env entry max_deps

/-- analyze invoked without an explicit bound: the src signature declares
max_deps with default value 36. -/
def analyzeDefaultMax (env : Env) (entry : String) : Except AnalysisError (List String) :=
  analyze env entry 36

/-- The argument record build passes to the packaging engine
(compile_lua_script, whose module is absent from src/): entry script,
final dependency list, and output path. -/
structure EngineCall where
  entry : String
  dependencies : List String
  output : Option String
deriving DecidableEq

/-- Dependency-merge loop of build (src/source/__init__.py lines 148-159):
each require is first checked for existence on disk, then its resolved
canonical path is appended unless already in the dependency set. -/
def mergeRequires (env : Env) (deps : List String) (depSet : List String) :
    List String → Except AnalysisError (List String)
  | [] => .ok deps
  | rq :: rest =>
    if env.fileExists rq then
      if env.canon rq ∈ depSet then mergeRequires env deps depSet rest
      else mergeRequires env (deps ++ [env.canon rq]) (env.canon rq :: depSet) rest
    else .error (.scriptNotFound rq)

/-- Merge order in the claim's words: each require's resolved canonical path
is appended when not already among the seen canonical paths, in the order
given. -/
def dedupByCanon (env : Env) (seen : List String) : List String → List String
  | [] => []
  | rq :: rest =>
    if env.canon rq ∈ seen then dedupByCanon env seen rest
    else env.canon rq :: dedupByCanon env (env.canon rq :: seen) rest

/-- First element of a require list that does not exist on disk, if any. -/
def firstMissing (env : Env) : List String → Option String
  | [] => none
  | rq :: rest => if env.fileExists rq then firstMissing env rest else some rq

/-- build from src/source/__init__.py lines 124-169: optional automatic
analysis, merge of explicit requires with an eager existence check (a
requires value of None behaves exactly like the empty list: the merge loop
is skipped), then a single engine invocation, represented here by the
argument record handed to the engine. -/
def build (env : Env) (entry : String) (requires : List String) (max_deps : Nat)
    (output : Option String) (manual : Bool) : Except AnalysisError EngineCall :=
  match (if manual then Except.ok [] else analyze_dependencies env entry max_deps) with
  | .error e => .error e
  | .ok dependencies =>
    match (if requires.isEmpty then Except.ok dependencies
           else mergeRequires env dependencies (dependencies.map env.canon) requires) with
    | .error e => .error e
    | .ok finalDeps => .ok (EngineCall.mk entry finalDeps output)

/-- Concrete diamond-dependency environment: a requires b and c, both of
which require d; every module resolves to the file of the same name. -/
def envDiamond : Env :=
  Env.mk
    (fun p =>
      if p = "a" then some (SourceUnit.mk
        [RequireSite.mk (ReqArg.literal "b") 1, RequireSite.mk (ReqArg.literal "c") 2])
      else if p = "b" then some (SourceUnit.mk [RequireSite.mk (ReqArg.literal "d") 1])
      else if p = "c" then some (SourceUnit.mk [RequireSite.mk (ReqArg.literal "d") 1])
      else if p = "d" then some (SourceUnit.mk [])
      else none)
    (fun n =>
      if n = "b" then .script "b"
      else if n = "c" then .script "c"
      else if n = "d" then .script "d"
      else .notFound [])
    (fun p => p)
    (fun p => p == "a" || p == "b" || p == "c" || p == "d")

/-- Concrete two-file cycle environment: a requires b and b requires a. -/
def envCyc : Env :=
  Env.mk
    (fun p =>
      if p = "a" then some (SourceUnit.mk [RequireSite.mk (ReqArg.literal "b") 1])
      else if p = "b" then some (SourceUnit.mk [RequireSite.mk (ReqArg.literal "a") 1])
      else none)
    (fun n =>
      if n = "a" then .script "a"
      else if n = "b" then .script "b"
      else .notFound [])
    (fun p => p)
    (fun p => p == "a" || p == "b")

/-- Concrete environment whose entry file contains a dynamic require on
line 1. -/
def envDyn : Env :=
  Env.mk
    (fun p => if p = "a" then some (SourceUnit.mk [RequireSite.mk (ReqArg.dynamic "x") 1]) else none)
    (fun _ => .notFound [])
    (fun p => p)
    (fun p => p == "a")

/-- Concrete environment with a reachable file m whose second require site
is dynamic: a requires m; m requires k and then a computed name. -/
def envDyn2 : Env :=
  Env.mk
    (fun p =>
      if p = "a" then some (SourceUnit.mk [RequireSite.mk (ReqArg.literal "m") 1])
      else if p = "m" then some (SourceUnit.mk
        [RequireSite.mk (ReqArg.literal "k") 1, RequireSite.mk (ReqArg.dynamic "name .. v") 2])
      else if p = "k" then some (SourceUnit.mk [])
      else none)
    (fun n =>
      if n = "m" then .script "m"
      else if n = "k" then .script "k"
      else .notFound [])
    (fun p => p)
    (fun p => p == "a" || p == "m" || p == "k")

/-- Concrete three-file chain environment: a requires x, x requires y. -/
def envChain : Env :=
  Env.mk
    (fun p =>
      if p = "a" then some (SourceUnit.mk [RequireSite.mk (ReqArg.literal "x") 1])
      else if p = "x" then some (SourceUnit.mk [RequireSite.mk (ReqArg.literal "y") 1])
      else if p = "y" then some (SourceUnit.mk [])
      else none)
    (fun n =>
      if n = "x" then .script "x"
      else if n = "y" then .script "y"
      else .notFound [])
    (fun p => p)
    (fun p => p == "a" || p == "x" || p == "y")

/-- Invariant of the traversal state carried through the loop proofs:
visited is duplicate-free and inside the scope `S`, bounded by the budget;
the queue is a duplicate-free subset of visited; recorded parent links
strictly decrease the rank `r`; every visited node is reachable from the
entry `e`. -/
structure SInv (env : Env) (S : List String) (r : String → Nat) (maxNodes : Nat)
    (e : String) (st : AnState) : Prop where
  vnodup : st.visited.Nodup
  vsub : ∀ v ∈ st.visited, v ∈ S
  vlen : st.visited.length ≤ maxNodes
  qsub : ∀ q ∈ st.queue, q ∈ st.visited
  qnodup : st.queue.Nodup
  parR : ∀ pr ∈ st.parent, r pr.1 < r pr.2
  sound : ∀ v ∈ st.visited, Reaches env e v

/- ------------------------------------------------------------------ -/
/- Theorems.                                                          -/
/- ------------------------------------------------------------------ -/

theorem nodeGoodB_spec (env : Env) (S : List String) (u : String)
    (h : nodeGoodB env S u = true) :
    ∃ su, env.fs u = some su ∧
      ∀ s ∈ su.sites, ∃ p, siteTarget env s = some p ∧ p ∈ S := by
  unfold nodeGoodB at h
  cases hfs : env.fs u with
  | none => rw [hfs] at h; exact absurd h (by simp)
  | some su =>
    rw [hfs] at h
    refine ⟨su, rfl, ?_⟩
    intro s hs
    have hall := (List.all_eq_true.mp h) s hs
    cases hst : siteTarget env s with
    | none => rw [hst] at hall; simp at hall
    | some p =>
      rw [hst] at hall
      refine ⟨p, rfl, ?_⟩
      simpa using hall

theorem nodeTargets_eq (env : Env) (u : String) (su : SourceUnit)
    (hfs : env.fs u = some su) :
    nodeTargets env u = su.sites.filterMap (siteTarget env) := by
  unfold nodeTargets; rw [hfs]

theorem mem_nodeTargets (env : Env) (u : String) (su : SourceUnit) (s : RequireSite)
    (p : String) (hfs : env.fs u = some su) (hs : s ∈ su.sites)
    (hp : siteTarget env s = some p) : p ∈ nodeTargets env u := by
  rw [nodeTargets_eq env u su hfs]
  exact List.mem_filterMap.mpr ⟨s, hs, hp⟩

theorem nodup_subset_length (l S : List String) (hn : l.Nodup)
    (hs : ∀ x ∈ l, x ∈ S) : l.length ≤ S.length := by
  have h1 : l.toFinset.card = l.length := List.toFinset_card_of_nodup hn
  have h2 : l.toFinset ⊆ S.toFinset := fun x hx =>
    List.mem_toFinset.mpr (hs x (List.mem_toFinset.mp hx))
  calc l.length = l.toFinset.card := h1.symm
    _ ≤ S.toFinset.card := Finset.card_le_card h2
    _ ≤ S.length := S.toFinset_card_le

theorem reach_mem_of_closed (env : Env) (V : List String) (e x : String)
    (he : e ∈ V) (hcl : ∀ v ∈ V, ∀ p ∈ nodeTargets env v, p ∈ V)
    (h : Reaches env e x) : x ∈ V := by
  induction h with
  | refl => exact he
  | tail hab hbc ih => exact hcl _ ih _ hbc

theorem chainAux_rank (r : String → Nat) :
    ∀ (fuel : Nat) (par : List (String × String)) (u x : String),
    (∀ pr ∈ par, r pr.1 < r pr.2) → x ∈ chainAux fuel par u → r u ≤ r x := by
  intro fuel
  induction fuel with
  | zero =>
    intro par u x _ hx
    simp only [chainAux, List.mem_singleton] at hx
    subst hx; exact le_refl _
  | succ n ih =>
    intro par u x hpar hx
    simp only [chainAux, List.mem_cons] at hx
    rcases hx with h | h
    · subst h; exact le_refl _
    · cases hl : lookupParent par u with
      | none => rw [hl] at h; simp at h
      | some v =>
        rw [hl] at h
        have hedge : r u < r v := by
          unfold lookupParent at hl
          cases hf : List.find? (fun pr => pr.1 == u) par with
          | none => rw [hf] at hl; simp at hl
          | some pr =>
            rw [hf] at hl
            have hl2 : pr.2 = v := by simpa using hl
            have hmem := List.mem_of_find?_eq_some hf
            have hcond : pr.1 = u := by
              have := List.find?_some hf
              simpa using this
            have hlt := hpar pr hmem
            rw [hcond, hl2] at hlt
            exact hlt
        exact le_trans (le_of_lt hedge) (ih par v x hpar h)

theorem mergeRequires_eq_dedup (env : Env) :
    ∀ (reqs deps seen : List String), (∀ rq ∈ reqs, env.fileExists rq = true) →
    mergeRequires env deps seen reqs = .ok (deps ++ dedupByCanon env seen reqs) := by
  intro reqs
  induction reqs with
  | nil => intro deps seen _; simp [mergeRequires, dedupByCanon]
  | cons rq rest ih =>
    intro deps seen hex
    have hrq : env.fileExists rq = true := hex rq (by simp)
    have hrest : ∀ r ∈ rest, env.fileExists r = true := fun r hr => hex r (by simp [hr])
    by_cases hmem : env.canon rq ∈ seen
    · simp [mergeRequires, dedupByCanon, hrq, hmem, ih deps seen hrest]
    · simp [mergeRequires, dedupByCanon, hrq, hmem,
        ih (deps ++ [env.canon rq]) (env.canon rq :: seen) hrest]

theorem mergeRequires_missing (env : Env) :
    ∀ (reqs : List String) (deps seen : List String) (rq : String),
    firstMissing env reqs = some rq →
    mergeRequires env deps seen reqs = .error (.scriptNotFound rq) := by
  intro reqs
  induction reqs with
  | nil => intro deps seen rq h; simp [firstMissing] at h
  | cons r rest ih =>
    intro deps seen rq h
    by_cases hr : env.fileExists r = true
    · simp [firstMissing, hr] at h
      by_cases hmem : env.canon r ∈ seen
      · simp [mergeRequires, hr, hmem, ih deps seen rq h]
      · simp [mergeRequires, hr, hmem,
          ih (deps ++ [env.canon r]) (env.canon r :: seen) rq h]
    · simp only [Bool.not_eq_true] at hr
      simp [firstMissing, hr] at h
      subst h
      simp [mergeRequires, hr]

/-- C10: with manual = true and an empty requires list (the model of both
None and an empty list), build performs no analysis and invokes the
packaging engine with an empty dependency list; the call succeeds, so it
cannot fail on account of missing dependencies. -/
theorem build_manual_no_requires (env : Env) (entry : String) (max_deps : Nat)
    (output : Option String) :
    build env entry [] max_deps output true = .ok (EngineCall.mk entry [] output) := rfl

/-- C7: when automatic dependency analysis fails, build returns exactly the
analysis error (surfaced verbatim); since the only success value is the
engine-call record, the packaging engine is never invoked and no partial
dependency list escapes. -/
theorem build_propagates_analysis_error (env : Env) (entry : String)
    (requires : List String) (max_deps : Nat) (output : Option String)
    (e : AnalysisError)
    (h : analyze_dependencies env entry max_deps = .error e) :
    build env entry requires max_deps output false = .error e := by
  simp [build, h]

theorem build_propagates_analysis_error_witness :
    analyze_dependencies envDyn "a" 36 = .error (.dynamicRequire "a" 1 "x") ∧
    build envDyn "a" ["b"] 36 none false = .error (.dynamicRequire "a" 1 "x") :=
  ⟨by decide, build_propagates_analysis_error envDyn "a" ["b"] 36 none _ (by decide)⟩

/-- C1: the dependency list build hands to the engine.  With manual = true no
analysis happens (the statement needs no hypothesis about analyze, which may
even fail) and the list is the explicit requires deduplicated by resolved
canonical path; with manual = false analysis runs first and each require
whose canonical path is not among the analyzed dependencies or an earlier
appended require is appended in the order given. -/
theorem build_merges_requires (env : Env) (entry : String) (requires : List String)
    (max_deps : Nat) (output : Option String)
    (hex : ∀ rq ∈ requires, env.fileExists rq = true) :
    build env entry requires max_deps output true
      = .ok (EngineCall.mk entry (dedupByCanon env [] requires) output) ∧
    (∀ ds, analyze_dependencies env entry max_deps = .ok ds →
      build env entry requires max_deps output false
        = .ok (EngineCall.mk entry (ds ++ dedupByCanon env (ds.map env.canon) requires) output)) := by
  constructor
  · cases requires with
    | nil => simp [build, dedupByCanon]
    | cons r rest =>
      have h := mergeRequires_eq_dedup env (r :: rest) [] [] hex
      simp [build, h]
  · intro ds hds
    cases requires with
    | nil => simp [build, hds, dedupByCanon]
    | cons r rest =>
      have h := mergeRequires_eq_dedup env (r :: rest) ds (ds.map env.canon) hex
      simp [build, hds, h]

theorem build_merges_requires_witness :
    (∀ rq ∈ ["b", "c", "b"], envDiamond.fileExists rq = true) ∧
    build envDiamond "e" ["b", "c", "b"] 36 none true
      = .ok (EngineCall.mk "e" (dedupByCanon envDiamond [] ["b", "c", "b"]) none) :=
  ⟨by decide, (build_merges_requires envDiamond "e" ["b", "c", "b"] 36 none (by decide)).1⟩

/-- C8 (amended): when the dependency phase supplies a list (manual mode, or
automatic analysis succeeding) and some explicit require does not exist on
disk, build fails with ScriptNotFound for the first missing require, before
the packaging engine is invoked. -/
theorem build_missing_require (env : Env) (entry : String) (requires : List String)
    (max_deps : Nat) (output : Option String) (manual : Bool) (rq : String)
    (ds : List String)
    (hds : (if manual then Except.ok [] else analyze_dependencies env entry max_deps)
             = .ok ds)
    (hmiss : firstMissing env requires = some rq) :
    build env entry requires max_deps output manual = .error (.scriptNotFound rq) := by
  have hne : requires ≠ [] := by
    intro h; subst h; simp [firstMissing] at hmiss
  simp only [build, hds]
  rw [if_neg (by simp [hne])]
  rw [mergeRequires_missing env requires ds (ds.map env.canon) rq hmiss]

theorem build_missing_require_witness :
    ((if true then Except.ok [] else analyze_dependencies envDiamond "a" 36)
        = Except.ok ([] : List String)) ∧
    (firstMissing envDiamond ["b", "ghost"] = some "ghost") ∧
    build envDiamond "a" ["b", "ghost"] 36 none true = .error (.scriptNotFound "ghost") :=
  ⟨rfl, by decide,
    build_missing_require envDiamond "a" ["b", "ghost"] 36 none true "ghost" [] rfl (by decide)⟩

/-- C8 counterexample: with automatic mode, a missing explicit require, and
an entry whose analysis fails (dynamic require), build fails with the
analysis error rather than ScriptNotFound, refuting the claim as stated. -/
theorem build_missing_require_counterexample :
    envDyn.fileExists "ghost" = false ∧
    build envDyn "a" ["ghost"] 36 none false = .error (.dynamicRequire "a" 1 "x") ∧
    AnalysisError.dynamicRequire "a" 1 "x" ≠ AnalysisError.scriptNotFound "ghost" := by
  refine ⟨rfl, ?_, by decide⟩
  decide

theorem processSite_tri (env : Env) (S : List String) (r : String → Nat) (maxNodes : Nat)
    (e u : String) (st : AnState) (s : RequireSite) (p : String)
    (inv : SInv env S r maxNodes e st) (hru : Reaches env e u)
    (hp : siteTarget env s = some p) (hpS : p ∈ S)
    (hedge : p ∈ nodeTargets env u) (hr : r p < r u) :
    (p ∈ st.visited ∧ processSite env maxNodes u st s = .ok st) ∨
    (p ∉ st.visited ∧
      processSite env maxNodes u st s
        = .ok (AnState.mk (st.visited ++ [p]) (st.queue ++ [p]) ((p, u) :: st.parent)) ∧
      SInv env S r maxNodes e
        (AnState.mk (st.visited ++ [p]) (st.queue ++ [p]) ((p, u) :: st.parent))) ∨
    (maxNodes < S.length ∧ ∃ nm, processSite env maxNodes u st s
        = .error (.dependencyLimitExceeded maxNodes nm)) := by
  obtain ⟨nm, harg, hres⟩ : ∃ nm, s.arg = ReqArg.literal nm ∧ env.resolve nm = .script p := by
    cases harg : s.arg with
    | dynamic raw => simp [siteTarget, harg] at hp
    | literal nm2 =>
      simp only [siteTarget, harg] at hp
      cases hres : env.resolve nm2 with
      | script q =>
        simp only [hres, Option.some.injEq] at hp
        exact ⟨nm2, rfl, by rw [hres, hp]⟩
      | native q => simp [hres] at hp
      | notFound l => simp [hres] at hp
  have hcyc : p ∉ ancestorChain st.parent u := by
    intro hmem
    have := chainAux_rank r (st.parent.length + 1) st.parent u p inv.parR hmem
    omega
  by_cases hv : p ∈ st.visited
  · left
    refine ⟨hv, ?_⟩
    simp only [processSite, harg, hres]
    rw [if_neg hcyc, if_pos hv]
  · have hnd : (st.visited ++ [p]).Nodup := by
      rw [List.nodup_append]
      exact ⟨inv.vnodup, List.nodup_singleton p,
        fun x hx hxp => hv ((List.mem_singleton.mp hxp) ▸ hx)⟩
    have hsub : ∀ x ∈ st.visited ++ [p], x ∈ S := by
      intro x hx
      rcases List.mem_append.mp hx with h | h
      · exact inv.vsub x h
      · exact (List.mem_singleton.mp h) ▸ hpS
    by_cases hb : maxNodes < st.visited.length + 1
    · right; right
      have hle := nodup_subset_length (st.visited ++ [p]) S hnd hsub
      rw [List.length_append, List.length_singleton] at hle
      refine ⟨by omega, nm, ?_⟩
      simp only [processSite, harg, hres]
      rw [if_neg hcyc, if_neg hv, if_pos hb]
    · right; left
      refine ⟨hv, ?_, ?_⟩
      · simp only [processSite, harg, hres]
        rw [if_neg hcyc, if_neg hv, if_neg hb]
      · refine ⟨hnd, hsub, ?_, ?_, ?_, ?_, ?_⟩
        · simp only [List.length_append, List.length_singleton]
          omega
        · intro q hq
          rcases List.mem_append.mp hq with h | h
          · exact List.mem_append.mpr (Or.inl (inv.qsub q h))
          · exact List.mem_append.mpr (Or.inr h)
        · rw [List.nodup_append]
          exact ⟨inv.qnodup, List.nodup_singleton p,
            fun x hx hxp => hv (inv.qsub p ((List.mem_singleton.mp hxp) ▸ hx))⟩
        · intro pr hpr
          rcases List.mem_cons.mp hpr with h | h
          · subst h; exact hr
          · exact inv.parR pr h
        · intro v hv2
          rcases List.mem_append.mp hv2 with h | h
          · exact inv.sound v h
          · exact (List.mem_singleton.mp h) ▸ Relation.ReflTransGen.tail hru hedge

theorem processSites_append (env : Env) (maxNodes : Nat) (u : String) :
    ∀ (l1 l2 : List RequireSite) (st : AnState),
    processSites env maxNodes u (l1 ++ l2) st =
      (match processSites env maxNodes u l1 st with
       | .error e => .error e
       | .ok st2 => processSites env maxNodes u l2 st2) := by
  intro l1
  induction l1 with
  | nil => intro l2 st; simp [processSites]
  | cons s rest ih =>
    intro l2 st
    simp only [List.cons_append, processSites]
    cases processSite env maxNodes u st s with
    | error e => rfl
    | ok st2 => exact ih l2 st2

theorem processSites_good (env : Env) (S : List String) (r : String → Nat)
    (maxNodes : Nat) (e u : String) (hru : Reaches env e u) :
    ∀ (ss : List RequireSite) (st : AnState),
    (∀ s ∈ ss, ∃ p, siteTarget env s = some p ∧ p ∈ S ∧
        p ∈ nodeTargets env u ∧ r p < r u) →
    SInv env S r maxNodes e st →
    (∃ st2 new, processSites env maxNodes u ss st = .ok st2 ∧
       SInv env S r maxNodes e st2 ∧
       st2.visited = st.visited ++ new ∧ st2.queue = st.queue ++ new ∧
       (∀ s ∈ ss, ∀ p, siteTarget env s = some p → p ∈ st2.visited)) ∨
    (maxNodes < S.length ∧ ∃ nm,
       processSites env maxNodes u ss st = .error (.dependencyLimitExceeded maxNodes nm)) := by
  intro ss
  induction ss with
  | nil =>
    intro st _ inv
    exact Or.inl ⟨st, [], rfl, inv, by simp, by simp, by simp⟩
  | cons s rest ih =>
    intro st hss inv
    obtain ⟨p, hp, hpS, hedge, hr⟩ := hss s (List.mem_cons_self s rest)
    have hrest : ∀ s2 ∈ rest, ∃ p2, siteTarget env s2 = some p2 ∧ p2 ∈ S ∧
        p2 ∈ nodeTargets env u ∧ r p2 < r u :=
      fun s2 hs2 => hss s2 (List.mem_cons_of_mem s hs2)
    rcases processSite_tri env S r maxNodes e u st s p inv hru hp hpS hedge hr with
      ⟨hmem, hok⟩ | ⟨hnmem, hok, inv2⟩ | ⟨hbig, nm, herr⟩
    · rcases ih st hrest inv with ⟨st2, new, h2, inv3, hv2, hq2, cov⟩ | ⟨hbig, nm, herr⟩
      · refine Or.inl ⟨st2, new, ?_, inv3, hv2, hq2, ?_⟩
        · simp only [processSites, hok]; exact h2
        · intro s2 hs2 p2 hp2
          rcases List.mem_cons.mp hs2 with h | h
          · subst h
            have hpp : p2 = p := by
              rw [hp] at hp2; injection hp2 with h2x; exact h2x.symm
            subst hpp
            rw [hv2]
            exact List.mem_append.mpr (Or.inl hmem)
          · exact cov s2 h p2 hp2
      · exact Or.inr ⟨hbig, nm, by simp only [processSites, hok]; exact herr⟩
    · rcases ih (AnState.mk (st.visited ++ [p]) (st.queue ++ [p]) ((p, u) :: st.parent))
          hrest inv2 with ⟨st2, new, h2, inv3, hv2, hq2, cov⟩ | ⟨hbig, nm, herr⟩
      · refine Or.inl ⟨st2, [p] ++ new, ?_, inv3, ?_, ?_, ?_⟩
        · simp only [processSites, hok]; exact h2
        · rw [hv2]; simp
        · rw [hq2]; simp
        · intro s2 hs2 p2 hp2
          rcases List.mem_cons.mp hs2 with h | h
          · subst h
            have hpp : p2 = p := by
              rw [hp] at hp2; injection hp2 with h2x; exact h2x.symm
            subst hpp
            rw [hv2]
            exact List.mem_append.mpr (Or.inl (List.mem_append.mpr
              (Or.inr (List.mem_singleton_self _))))
          · exact cov s2 h p2 hp2
      · exact Or.inr ⟨hbig, nm, by simp only [processSites, hok]; exact herr⟩
    · exact Or.inr ⟨hbig, nm, by simp only [processSites, herr]⟩

theorem bfsLoop_run (env : Env) (S : List String) (r : String → Nat) (maxNodes : Nat)
    (e : String)
    (hgood : ∀ u ∈ S, nodeGoodB env S u = true)
    (hrank : ∀ u ∈ S, ∀ p ∈ nodeTargets env u, r p < r u) :
    ∀ (fuel : Nat) (st : AnState),
    SInv env S r maxNodes e st →
    (∃ t, st.visited = e :: t) →
    (∀ v ∈ st.visited, v ∉ st.queue → ∀ p ∈ nodeTargets env v, p ∈ st.visited) →
    st.queue.length + maxNodes ≤ fuel + st.visited.length →
    (∃ vf, bfsLoop env maxNodes fuel st = .ok vf.tail ∧ vf.Nodup ∧
       (∃ t, vf = e :: t) ∧ (∀ v ∈ vf, v ∈ S) ∧ (∀ v ∈ vf, Reaches env e v) ∧
       vf.length ≤ maxNodes ∧ (∀ v ∈ vf, ∀ p ∈ nodeTargets env v, p ∈ vf)) ∨
    (maxNodes < S.length ∧ ∃ nm,
       bfsLoop env maxNodes fuel st = .error (.dependencyLimitExceeded maxNodes nm)) := by
  intro fuel
  induction fuel with
  | zero =>
    intro st inv hhead hcl hcount
    have hq : st.queue = [] := by
      have hlen := inv.vlen
      have h0 : st.queue.length = 0 := by omega
      exact List.length_eq_zero.mp h0
    left
    exact ⟨st.visited, rfl, inv.vnodup, hhead, inv.vsub, inv.sound, inv.vlen,
      fun v hv p hp => hcl v hv (by simp [hq]) p hp⟩
  | succ fuel ih =>
    intro st inv hhead hcl hcount
    cases hq : st.queue with
    | nil =>
      left
      exact ⟨st.visited, by simp only [bfsLoop, hq], inv.vnodup, hhead, inv.vsub,
        inv.sound, inv.vlen, fun v hv p hp => hcl v hv (by simp [hq]) p hp⟩
    | cons u rest =>
      have huv : u ∈ st.visited := inv.qsub u (by rw [hq]; exact List.mem_cons_self u rest)
      have huS : u ∈ S := inv.vsub u huv
      obtain ⟨su, hfs, hsites⟩ := nodeGoodB_spec env S u (hgood u huS)
      have hru : Reaches env e u := inv.sound u huv
      have inv1 : SInv env S r maxNodes e (AnState.mk st.visited rest st.parent) := by
        refine ⟨inv.vnodup, inv.vsub, inv.vlen, ?_, ?_, inv.parR, inv.sound⟩
        · intro q hq2; exact inv.qsub q (by rw [hq]; exact List.mem_cons_of_mem u hq2)
        · have h2 := inv.qnodup; rw [hq] at h2; exact h2.of_cons
      have hss : ∀ s ∈ su.sites, ∃ p, siteTarget env s = some p ∧ p ∈ S ∧
          p ∈ nodeTargets env u ∧ r p < r u := by
        intro s hs
        obtain ⟨p, hp, hpS⟩ := hsites s hs
        have hedge := mem_nodeTargets env u su s p hfs hs hp
        exact ⟨p, hp, hpS, hedge, hrank u huS p hedge⟩
      rcases processSites_good env S r maxNodes e u hru su.sites
          (AnState.mk st.visited rest st.parent) hss inv1 with
        ⟨st2, new, hps, inv2, hv2, hq2, cov⟩ | ⟨hbig, nm, herr⟩
      · obtain ⟨t, ht⟩ := hhead
        have hhead2 : ∃ t2, st2.visited = e :: t2 := ⟨t ++ new, by rw [hv2, ht]; simp⟩
        have hcl2 : ∀ v ∈ st2.visited, v ∉ st2.queue →
            ∀ p ∈ nodeTargets env v, p ∈ st2.visited := by
          intro v hv hvq p hp
          rw [hv2] at hv ⊢
          rw [hq2] at hvq
          rcases List.mem_append.mp hv with hvold | hvnew
          · by_cases hvu : v = u
            · subst hvu
              rw [nodeTargets_eq env v su hfs] at hp
              obtain ⟨s, hs, hsp⟩ := List.mem_filterMap.mp hp
              have hcov := cov s hs p hsp
              rw [hv2] at hcov
              exact hcov
            · have hvq0 : v ∉ st.queue := by
                rw [hq]
                intro hvin
                rcases List.mem_cons.mp hvin with h | h
                · exact hvu h
                · exact hvq (List.mem_append.mpr (Or.inl h))
              exact List.mem_append.mpr (Or.inl (hcl v hvold hvq0 p hp))
          · exact absurd (List.mem_append.mpr (Or.inr hvnew)) hvq
        have hcount2 : st2.queue.length + maxNodes ≤ fuel + st2.visited.length := by
          rw [hq2, hv2]
          simp only [List.length_append]
          rw [hq] at hcount
          simp only [List.length_cons] at hcount
          omega
        have hstep : bfsLoop env maxNodes (fuel + 1) st = bfsLoop env maxNodes fuel st2 := by
          simp only [bfsLoop, hq, hfs, hps]
        rw [hstep]
        exact ih st2 inv2 hhead2 hcl2 hcount2
      · right
        refine ⟨hbig, nm, ?_⟩
        simp only [bfsLoop, hq, hfs, herr]

theorem one_le_length_of_mem (S : List String) (x : String) (h : x ∈ S) :
    1 ≤ S.length := List.length_pos.mpr (List.ne_nil_of_mem h)

theorem analyze_run_disj (env : Env) (entry : String) (maxNodes : Nat)
    (S : List String) (r : String → Nat)
    (he : env.canon entry ∈ S)
    (hgood : ∀ u ∈ S, nodeGoodB env S u = true)
    (hrank : ∀ u ∈ S, ∀ p ∈ nodeTargets env u, r p < r u)
    (h1 : 1 ≤ maxNodes) :
    (∃ vf, analyze_dependencies env entry maxNodes = .ok vf.tail ∧ vf.Nodup ∧
       (∃ t, vf = env.canon entry :: t) ∧ (∀ v ∈ vf, v ∈ S) ∧
       (∀ v ∈ vf, Reaches env (env.canon entry) v) ∧
       vf.length ≤ maxNodes ∧ (∀ v ∈ vf, ∀ p ∈ nodeTargets env v, p ∈ vf)) ∨
    (maxNodes < S.length ∧ ∃ nm, analyze_dependencies env entry maxNodes
        = .error (.dependencyLimitExceeded maxNodes nm)) := by
  obtain ⟨su, hfs, _⟩ := nodeGoodB_spec env S (env.canon entry) (hgood _ he)
  have hana : analyze_dependencies env entry maxNodes
      = bfsLoop env maxNodes maxNodes
          (AnState.mk [env.canon entry] [env.canon entry] []) := by
    simp only [analyze_dependencies, hfs]
    rw [if_neg (by omega)]
  have inv0 : SInv env S r maxNodes (env.canon entry)
      (AnState.mk [env.canon entry] [env.canon entry] []) := by
    refine ⟨List.nodup_singleton _, ?_, ?_, ?_, List.nodup_singleton _, ?_, ?_⟩
    · intro v hv; rw [List.mem_singleton.mp hv]; exact he
    · simpa using h1
    · intro q hqm; exact hqm
    · intro pr hpr; simp at hpr
    · intro v hv; rw [List.mem_singleton.mp hv]; exact Relation.ReflTransGen.refl
  rw [hana]
  exact bfsLoop_run env S r maxNodes (env.canon entry) hgood hrank maxNodes
    (AnState.mk [env.canon entry] [env.canon entry] []) inv0 ⟨[], rfl⟩
    (fun v hv hvq => absurd hv hvq) (by simp only [List.length_singleton]; omega)

/-- C2: over an acyclic require graph (witnessed by a rank function that
strictly decreases along every require edge) whose reachable scope S is
good and fits the budget, analyze succeeds and returns a duplicate-free
list containing exactly the reachable non-entry paths — a module required
along several routes (diamond) appears once; an entry with no requires
yields the empty list. -/
theorem analyze_acyclic_exact (env : Env) (entry : String) (maxNodes : Nat)
    (S : List String) (r : String → Nat)
    (hS : S.Nodup) (he : env.canon entry ∈ S)
    (hgood : ∀ u ∈ S, nodeGoodB env S u = true)
    (hrank : ∀ u ∈ S, ∀ p ∈ nodeTargets env u, r p < r u)
    (hlen : S.length ≤ maxNodes) :
    ∃ l, analyze_dependencies env entry maxNodes = .ok l ∧ l.Nodup ∧
      (∀ p, p ∈ l ↔ (Reaches env (env.canon entry) p ∧ p ≠ env.canon entry)) ∧
      (nodeTargets env (env.canon entry) = [] → l = []) := by
  have h1 : 1 ≤ maxNodes := le_trans (one_le_length_of_mem S _ he) hlen
  rcases analyze_run_disj env entry maxNodes S r he hgood hrank h1 with
    ⟨vf, hok, hnd, ⟨t, hvf⟩, hsub, hsound, hlenv, hclosed⟩ | ⟨hbig, _⟩
  · subst hvf
    simp only [List.tail_cons] at hok
    have hent : env.canon entry ∉ t := (List.nodup_cons.mp hnd).1
    have hiff : ∀ p, p ∈ t ↔ (Reaches env (env.canon entry) p ∧ p ≠ env.canon entry) := by
      intro p
      constructor
      · intro hp
        refine ⟨hsound p (List.mem_cons_of_mem _ hp), ?_⟩
        intro hpe
        exact hent (hpe ▸ hp)
      · rintro ⟨hre, hne⟩
        have := reach_mem_of_closed env (env.canon entry :: t) (env.canon entry) p
          (List.mem_cons_self _ _) hclosed hre
        rcases List.mem_cons.mp this with h | h
        · exact absurd h hne
        · exact h
    refine ⟨t, hok, (List.nodup_cons.mp hnd).2, hiff, ?_⟩
    intro hemp
    rw [List.eq_nil_iff_forall_not_mem]
    intro p hp
    obtain ⟨hre, hne⟩ := (hiff p).mp hp
    rcases Relation.ReflTransGen.cases_head hre with h | ⟨c, hc, _⟩
    · exact hne h.symm
    · have : c ∈ nodeTargets env (env.canon entry) := hc
      rw [hemp] at this
      simp at this
  · exact absurd hbig (by omega)

theorem analyze_acyclic_exact_witness :
    (List.Nodup ["a", "b", "c", "d"] ∧ envDiamond.canon "a" ∈ ["a", "b", "c", "d"] ∧
      (∀ u ∈ ["a", "b", "c", "d"], nodeGoodB envDiamond ["a", "b", "c", "d"] u = true) ∧
      List.length ["a", "b", "c", "d"] ≤ 36) ∧
    (∃ l, analyze_dependencies envDiamond "a" 36 = .ok l ∧ l.Nodup ∧
      (∀ p, p ∈ l ↔ (Reaches envDiamond (envDiamond.canon "a") p ∧ p ≠ envDiamond.canon "a")) ∧
      (nodeTargets envDiamond (envDiamond.canon "a") = [] → l = [])) :=
  ⟨⟨by decide, by decide, by decide, by decide⟩,
    analyze_acyclic_exact envDiamond "a" 36 ["a", "b", "c", "d"]
      (fun p => if p = "a" then 3 else if p = "b" then 2 else if p = "c" then 2 else 1)
      (by decide) (by decide) (by decide) (by decide) (by decide)⟩

/-- C5: a traversal that would need more than maxNodes distinct reachable
modules (witnessed by a duplicate-free reachable list T longer than the
budget) fails with DependencyLimitExceeded carrying the limit; a good scope
that fits the budget succeeds; and analyze invoked without an explicit
bound uses the default limit 36. -/
theorem analyze_limit_behavior (env : Env) (entry : String) (maxNodes : Nat)
    (S T : List String) (r : String → Nat)
    (he : env.canon entry ∈ S)
    (hgood : ∀ u ∈ S, nodeGoodB env S u = true)
    (hrank : ∀ u ∈ S, ∀ p ∈ nodeTargets env u, r p < r u)
    (hT : T.Nodup) (hTreach : ∀ x ∈ T, Reaches env (env.canon entry) x)
    (hTbig : maxNodes < T.length) :
    (∃ nm, analyze_dependencies env entry maxNodes
        = .error (.dependencyLimitExceeded maxNodes nm)) ∧
    (∀ (env2 : Env) (entry2 : String) (maxNodes2 : Nat) (S2 : List String)
        (r2 : String → Nat), env2.canon entry2 ∈ S2 →
      (∀ u ∈ S2, nodeGoodB env2 S2 u = true) →
      (∀ u ∈ S2, ∀ p ∈ nodeTargets env2 u, r2 p < r2 u) →
      S2.length ≤ maxNodes2 →
      ∃ l, analyze_dependencies env2 entry2 maxNodes2 = .ok l) ∧
    (∀ (env2 : Env) (entry2 : String),
      analyzeDefaultMax env2 entry2 = analyze_dependencies env2 entry2 36) := by
  refine ⟨?_, ?_, fun env2 entry2 => rfl⟩
  · by_cases h1 : 1 ≤ maxNodes
    · rcases analyze_run_disj env entry maxNodes S r he hgood hrank h1 with
        ⟨vf, hok, hnd, ⟨t, hvf⟩, hsub, hsound, hlenv, hclosed⟩ | ⟨hbig, hres⟩
      · exfalso
        have hTsub : ∀ x ∈ T, x ∈ vf := fun x hx =>
          reach_mem_of_closed env vf (env.canon entry) x
            (by rw [hvf]; exact List.mem_cons_self _ _) hclosed (hTreach x hx)
        have := nodup_subset_length T vf hT hTsub
        omega
      · exact hres
    · have h0 : maxNodes = 0 := by omega
      subst h0
      obtain ⟨su, hfs, _⟩ := nodeGoodB_spec env S (env.canon entry) (hgood _ he)
      refine ⟨entry, ?_⟩
      simp only [analyze_dependencies, hfs]
      rw [if_pos (by omega)]
  · intro env2 entry2 maxNodes2 S2 r2 he2 hgood2 hrank2 hlen2
    have h1 : 1 ≤ maxNodes2 := le_trans (one_le_length_of_mem S2 _ he2) hlen2
    rcases analyze_run_disj env2 entry2 maxNodes2 S2 r2 he2 hgood2 hrank2 h1 with
      ⟨vf, hok, _⟩ | ⟨hbig, _⟩
    · exact ⟨vf.tail, hok⟩
    · exact absurd hbig (by omega)

theorem analyze_limit_behavior_witness :
    (List.Nodup ["a", "x", "y"] ∧ (2 : Nat) < List.length ["a", "x", "y"]) ∧
    (∃ nm, analyze_dependencies envChain "a" 2
        = .error (.dependencyLimitExceeded 2 nm)) :=
  ⟨⟨by decide, by decide⟩,
    (analyze_limit_behavior envChain "a" 2 ["a", "x", "y"] ["a", "x", "y"]
      (fun p => if p = "a" then 2 else if p = "x" then 1 else 0)
      (by decide) (by decide) (by decide) (by decide)
      (by
        intro x hx
        simp only [List.mem_cons, List.not_mem_nil, or_false] at hx
        rcases hx with rfl | rfl | rfl
        · exact Relation.ReflTransGen.refl
        · exact Relation.ReflTransGen.single
            (by decide : ("x" : String) ∈ nodeTargets envChain "a")
        · exact Relation.ReflTransGen.tail
            (Relation.ReflTransGen.single
              (by decide : ("x" : String) ∈ nodeTargets envChain "a"))
            (by decide : ("y" : String) ∈ nodeTargets envChain "x"))
      (by decide)).1⟩

theorem bfsLoopD (env : Env) (S : List String) (r : String → Nat) (maxNodes : Nat)
    (e f raw : String) (ln : Nat) (suF : SourceUnit) (pre post : List RequireSite)
    (hgood : ∀ u ∈ S, u ≠ f → nodeGoodB env S u = true)
    (hrank : ∀ u ∈ S, ∀ p ∈ nodeTargets env u, r p < r u)
    (hlen : S.length ≤ maxNodes)
    (hfsF : env.fs f = some suF)
    (hsitesF : suF.sites = pre ++ RequireSite.mk (ReqArg.dynamic raw) ln :: post)
    (hpre : ∀ s ∈ pre, ∃ p, siteTarget env s = some p ∧ p ∈ S)
    (hreach : Reaches env e f) :
    ∀ (fuel : Nat) (st : AnState),
    SInv env S r maxNodes e st →
    (∃ t, st.visited = e :: t) →
    (∀ v ∈ st.visited, v ∉ st.queue → v ≠ f → ∀ p ∈ nodeTargets env v, p ∈ st.visited) →
    (f ∈ st.visited → f ∈ st.queue) →
    st.queue.length + maxNodes ≤ fuel + st.visited.length →
    bfsLoop env maxNodes fuel st = .error (.dynamicRequire f ln raw) := by
  intro fuel
  induction fuel with
  | zero =>
    intro st inv hhead hcl hfq hcount
    exfalso
    have hq : st.queue = [] := by
      have hlenv := inv.vlen
      have h0 : st.queue.length = 0 := by omega
      exact List.length_eq_zero.mp h0
    have hfnv : f ∉ st.visited := fun hfv => by
      have hmem := hfq hfv; rw [hq] at hmem; simp at hmem
    obtain ⟨t, ht⟩ := hhead
    have hclosed : ∀ v ∈ st.visited, ∀ p ∈ nodeTargets env v, p ∈ st.visited := by
      intro v hv p hp
      have hvf : v ≠ f := fun hvf2 => hfnv (hvf2 ▸ hv)
      exact hcl v hv (by simp [hq]) hvf p hp
    exact hfnv (reach_mem_of_closed env st.visited e f
      (by rw [ht]; exact List.mem_cons_self _ _) hclosed hreach)
  | succ fuel ih =>
    intro st inv hhead hcl hfq hcount
    cases hq : st.queue with
    | nil =>
      exfalso
      have hfnv : f ∉ st.visited := fun hfv => by
        have hmem := hfq hfv; rw [hq] at hmem; simp at hmem
      obtain ⟨t, ht⟩ := hhead
      have hclosed : ∀ v ∈ st.visited, ∀ p ∈ nodeTargets env v, p ∈ st.visited := by
        intro v hv p hp
        have hvf : v ≠ f := fun hvf2 => hfnv (hvf2 ▸ hv)
        exact hcl v hv (by simp [hq]) hvf p hp
      exact hfnv (reach_mem_of_closed env st.visited e f
        (by rw [ht]; exact List.mem_cons_self _ _) hclosed hreach)
    | cons u rest =>
      have huv : u ∈ st.visited := inv.qsub u (by rw [hq]; exact List.mem_cons_self u rest)
      have huS : u ∈ S := inv.vsub u huv
      have hru : Reaches env e u := inv.sound u huv
      have inv1 : SInv env S r maxNodes e (AnState.mk st.visited rest st.parent) := by
        refine ⟨inv.vnodup, inv.vsub, inv.vlen, ?_, ?_, inv.parR, inv.sound⟩
        · intro q hq2; exact inv.qsub q (by rw [hq]; exact List.mem_cons_of_mem u hq2)
        · have h2 := inv.qnodup; rw [hq] at h2; exact h2.of_cons
      by_cases huf : u = f
      · subst huf
        have hssPre : ∀ s ∈ pre, ∃ p, siteTarget env s = some p ∧ p ∈ S ∧
            p ∈ nodeTargets env u ∧ r p < r u := by
          intro s hs
          obtain ⟨p, hp, hpS⟩ := hpre s hs
          have hedge := mem_nodeTargets env u suF s p hfsF
            (by rw [hsitesF]; exact List.mem_append.mpr (Or.inl hs)) hp
          exact ⟨p, hp, hpS, hedge, hrank u huS p hedge⟩
        rcases processSites_good env S r maxNodes e u hru pre
            (AnState.mk st.visited rest st.parent) hssPre inv1 with
          ⟨st2, new, hps, inv2, hv2, hq2, cov⟩ | ⟨hbig, nm, herr⟩
        · have herrd : processSites env maxNodes u suF.sites
              (AnState.mk st.visited rest st.parent)
              = .error (.dynamicRequire u ln raw) := by
            rw [hsitesF, processSites_append, hps]
            simp only [processSites, processSite]
          simp only [bfsLoop, hq, hfsF, herrd]
        · exact absurd hbig (by omega)
      · obtain ⟨su, hfs, hsites⟩ := nodeGoodB_spec env S u (hgood u huS huf)
        have hss : ∀ s ∈ su.sites, ∃ p, siteTarget env s = some p ∧ p ∈ S ∧
            p ∈ nodeTargets env u ∧ r p < r u := by
          intro s hs
          obtain ⟨p, hp, hpS⟩ := hsites s hs
          have hedge := mem_nodeTargets env u su s p hfs hs hp
          exact ⟨p, hp, hpS, hedge, hrank u huS p hedge⟩
        rcases processSites_good env S r maxNodes e u hru su.sites
            (AnState.mk st.visited rest st.parent) hss inv1 with
          ⟨st2, new, hps, inv2, hv2, hq2, cov⟩ | ⟨hbig, nm, herr⟩
        · obtain ⟨t, ht⟩ := hhead
          have hhead2 : ∃ t2, st2.visited = e :: t2 := ⟨t ++ new, by rw [hv2, ht]; simp⟩
          have hcl2 : ∀ v ∈ st2.visited, v ∉ st2.queue → v ≠ f →
              ∀ p ∈ nodeTargets env v, p ∈ st2.visited := by
            intro v hv hvq hvf p hp
            rw [hv2] at hv ⊢
            rw [hq2] at hvq
            rcases List.mem_append.mp hv with hvold | hvnew
            · by_cases hvu : v = u
              · subst hvu
                rw [nodeTargets_eq env v su hfs] at hp
                obtain ⟨s, hs, hsp⟩ := List.mem_filterMap.mp hp
                have hcov := cov s hs p hsp
                rw [hv2] at hcov
                exact hcov
              · have hvq0 : v ∉ st.queue := by
                  rw [hq]
                  intro hvin
                  rcases List.mem_cons.mp hvin with h | h
                  · exact hvu h
                  · exact hvq (List.mem_append.mpr (Or.inl h))
                exact List.mem_append.mpr (Or.inl (hcl v hvold hvq0 hvf p hp))
            · exact absurd (List.mem_append.mpr (Or.inr hvnew)) hvq
          have hfq2 : f ∈ st2.visited → f ∈ st2.queue := by
            intro hfv
            rw [hv2] at hfv
            rw [hq2]
            rcases List.mem_append.mp hfv with h | h
            · have hmem := hfq h
              rw [hq] at hmem
              rcases List.mem_cons.mp hmem with h2 | h2
              · exact absurd h2.symm huf
              · exact List.mem_append.mpr (Or.inl h2)
            · exact List.mem_append.mpr (Or.inr h)
          have hcount2 : st2.queue.length + maxNodes ≤ fuel + st2.visited.length := by
            rw [hq2, hv2]
            simp only [List.length_append]
            rw [hq] at hcount
            simp only [List.length_cons] at hcount
            omega
          have hstep : bfsLoop env maxNodes (fuel + 1) st = bfsLoop env maxNodes fuel st2 := by
            simp only [bfsLoop, hq, hfs, hps]
          rw [hstep]
          exact ih st2 inv2 hhead2 hcl2 hfq2 hcount2
        · exact absurd hbig (by omega)

/-- C4: in an otherwise good, acyclic, within-budget scope, a reachable file
f whose require sites consist of statically resolvable sites followed by a
dynamic (non-literal) one makes analyze abort the whole traversal with
DynamicRequire carrying the offending file, line, and raw argument text; no
dependency list is produced. -/
theorem analyze_dynamic_require (env : Env) (entry : String) (maxNodes : Nat)
    (S : List String) (r : String → Nat) (f raw : String) (ln : Nat)
    (suF : SourceUnit) (pre post : List RequireSite)
    (he : env.canon entry ∈ S) (hfS : f ∈ S)
    (hgood : ∀ u ∈ S, u ≠ f → nodeGoodB env S u = true)
    (hrank : ∀ u ∈ S, ∀ p ∈ nodeTargets env u, r p < r u)
    (hlen : S.length ≤ maxNodes)
    (hfsF : env.fs f = some suF)
    (hsitesF : suF.sites = pre ++ RequireSite.mk (ReqArg.dynamic raw) ln :: post)
    (hpre : ∀ s ∈ pre, ∃ p, siteTarget env s = some p ∧ p ∈ S)
    (hreach : Reaches env (env.canon entry) f) :
    analyze_dependencies env entry maxNodes = .error (.dynamicRequire f ln raw) := by
  have h1 : 1 ≤ maxNodes := le_trans (one_le_length_of_mem S _ he) hlen
  obtain ⟨su0, hfs0⟩ : ∃ su0, env.fs (env.canon entry) = some su0 := by
    by_cases hef : env.canon entry = f
    · exact ⟨suF, by rw [hef]; exact hfsF⟩
    · obtain ⟨su0, hfs0, _⟩ := nodeGoodB_spec env S _ (hgood _ he hef)
      exact ⟨su0, hfs0⟩
  have hana : analyze_dependencies env entry maxNodes
      = bfsLoop env maxNodes maxNodes
          (AnState.mk [env.canon entry] [env.canon entry] []) := by
    simp only [analyze_dependencies, hfs0]
    rw [if_neg (by omega)]
  rw [hana]
  refine bfsLoopD env S r maxNodes (env.canon entry) f raw ln suF pre post hgood
    hrank hlen hfsF hsitesF hpre hreach maxNodes _ ?_ ⟨[], rfl⟩
    (fun v hv hvq _ => absurd hv hvq) (fun hfv => hfv)
    (by simp only [List.length_singleton]; omega)
  refine ⟨List.nodup_singleton _, ?_, ?_, ?_, List.nodup_singleton _, ?_, ?_⟩
  · intro v hv; rw [List.mem_singleton.mp hv]; exact he
  · simpa using h1
  · intro q hqm; exact hqm
  · intro pr hpr; simp at hpr
  · intro v hv; rw [List.mem_singleton.mp hv]; exact Relation.ReflTransGen.refl

theorem analyze_dynamic_require_witness :
    (∀ u ∈ ["a", "m", "k"], u ≠ "m" → nodeGoodB envDyn2 ["a", "m", "k"] u = true) ∧
    analyze_dependencies envDyn2 "a" 36 = .error (.dynamicRequire "m" 2 "name .. v") :=
  ⟨by decide, analyze_dynamic_require envDyn2 "a" 36 ["a", "m", "k"]
    (fun p => if p = "a" then 2 else if p = "m" then 1 else 0) "m" "name .. v" 2
    (SourceUnit.mk [RequireSite.mk (ReqArg.literal "k") 1,
      RequireSite.mk (ReqArg.dynamic "name .. v") 2])
    [RequireSite.mk (ReqArg.literal "k") 1] []
    (by decide) (by decide) (by decide) (by decide) (by decide) (by decide) rfl
    (by
      intro s hs
      rw [List.mem_singleton] at hs
      subst hs
      exact ⟨"k", by decide, by decide⟩)
    (Relation.ReflTransGen.single
      (by decide : ("m" : String) ∈ nodeTargets envDyn2 "a"))⟩

/-- C3: two mutually requiring files make analyze fail with
CircularDependency reporting the cycle [a, b, a]: the traversal visits a,
discovers b, and when processing b finds that its resolved target a is an
ancestor on the current traversal path. -/
theorem analyze_two_cycle (env : Env) (a b na nb : String) (la lb : Nat) (maxNodes : Nat)
    (hcanon : env.canon a = a) (hab : a ≠ b)
    (hfa : env.fs a = some (SourceUnit.mk [RequireSite.mk (ReqArg.literal nb) la]))
    (hfb : env.fs b = some (SourceUnit.mk [RequireSite.mk (ReqArg.literal na) lb]))
    (hrb : env.resolve nb = ResolveResult.script b)
    (hra : env.resolve na = ResolveResult.script a)
    (hmax : 2 ≤ maxNodes) :
    analyze_dependencies env a maxNodes = .error (.circularDependency [a, b, a]) := by
  obtain ⟨k, rfl⟩ : ∃ k, maxNodes = k + 2 := ⟨maxNodes - 2, by omega⟩
  have hba : b ≠ a := Ne.symm hab
  have hfind_b : lookupParent [(b, a)] b = some a := by simp [lookupParent]
  have hfind_a : lookupParent [(b, a)] a = none := by simp [lookupParent, hba]
  have hchain2 : ancestorChain [(b, a)] b = [b, a] := by
    simp [ancestorChain, chainAux, hfind_b, hfind_a]
  have hstep1 : processSite env (k + 2) a (AnState.mk [a] [] [])
      (RequireSite.mk (ReqArg.literal nb) la) = .ok (AnState.mk [a, b] [b] [(b, a)]) := by
    simp only [processSite, hrb]
    rw [if_neg (by simp [ancestorChain, chainAux, lookupParent, hba])]
    rw [if_neg (by simp [hba])]
    rw [if_neg (by simp only [List.length_singleton]; omega)]
    simp
  have hstep2 : processSite env (k + 2) b (AnState.mk [a, b] [] [(b, a)])
      (RequireSite.mk (ReqArg.literal na) lb) = .error (.circularDependency [a, b, a]) := by
    simp only [processSite, hra, hchain2]
    rw [if_pos (by simp)]
    simp [cyclePath, hba]
  simp only [analyze_dependencies, hcanon, hfa]
  rw [if_neg (by omega)]
  rw [show k + 2 = (k + 1) + 1 from rfl]
  simp only [bfsLoop, hfa]
  simp only [processSites, hstep1]
  simp only [bfsLoop, hfb]
  simp only [processSites, hstep2]

theorem analyze_two_cycle_witness :
    envCyc.canon "a" = "a" ∧
    analyze_dependencies envCyc "a" 36 = .error (.circularDependency ["a", "b", "a"]) :=
  ⟨rfl, analyze_two_cycle envCyc "a" "b" "a" "b" 1 1 36 rfl (by decide)
    (by decide) (by decide) (by decide) (by decide) (by omega)⟩

/-- C6: analysis is deterministic: two analyze calls over unchanged input
files (identical filesystem contents, resolver outcomes, canonicalization
and existence data) return identical results, including identical order. -/
theorem analyze_deterministic (env env2 : Env) (entry : String) (maxNodes : Nat)
    (h1 : ∀ p, env.fs p = env2.fs p) (h2 : ∀ n, env.resolve n = env2.resolve n)
    (h3 : ∀ p, env.canon p = env2.canon p)
    (h4 : ∀ p, env.fileExists p = env2.fileExists p) :
    analyze_dependencies env entry maxNodes = analyze_dependencies env2 entry maxNodes := by
  obtain ⟨f, r, c, x⟩ := env
  obtain ⟨f2, r2, c2, x2⟩ := env2
  simp only at h1 h2 h3 h4
  have hf : f = f2 := funext h1
  have hr : r = r2 := funext h2
  have hc : c = c2 := funext h3
  have hx : x = x2 := funext h4
  subst hf; subst hr; subst hc; subst hx
  rfl

theorem analyze_deterministic_witness :
    analyze_dependencies envDiamond "a" 36 = analyze_dependencies envDiamond "a" 36 :=
  analyze_deterministic envDiamond envDiamond "a" 36
    (fun _ => rfl) (fun _ => rfl) (fun _ => rfl) (fun _ => rfl)
